import Mathlib

/-
Verification of the FEN chess-notation decoder (src/src/parser.rs).

The source is embedded shallowly: panics (assert!, unreachable!, and
out-of-bounds Vec indexing) are modelled by returning `none`, so every
Rust function that can panic becomes an `Option`-valued Lean function.
Strings are handled through their underlying character lists.
-/

namespace FenSpec

/-- Piece kinds, from `enum PieceType` in the source. `Empty` is the default. -/
inductive PieceType where
  | Pawn
  | Rook
  | Knight
  | Bishop
  | Queen
  | King
  | Empty
deriving DecidableEq, Repr

/-- Piece colors, from `enum PieceColor` in the source. `Empty` is the default. -/
inductive PieceColor where
  | White
  | Black
  | Empty
deriving DecidableEq, Repr

/-- A square of the board, from `struct Piece` in the source. -/
structure Piece where
  piece_type : PieceType
  color : PieceColor
deriving DecidableEq, Repr

/-- A row of the board, from `struct Row` in the source: a vector of pieces,
index 0 up to 7 mapping to chessboard columns A-H. -/
structure Row where
  pieces : List Piece
deriving DecidableEq, Repr

/-- The board, from `struct Fen` in the source: a vector of rows, index 0 up
to 7 mapping to chessboard rows 1-8. -/
structure Fen where
  rows : List Row
deriving DecidableEq, Repr

/-- `Piece::air()` from the source: an empty square. -/
def Piece.air : Piece :=
  { piece_type := PieceType.Empty, color := PieceColor.Empty }

/-- `Piece::white_piece(piece_type)` from the source. -/
def Piece.white_piece (t : PieceType) : Piece :=
  { piece_type := t, color := PieceColor.White }

/-- `Piece::black_piece(piece_type)` from the source. -/
def Piece.black_piece (t : PieceType) : Piece :=
  { piece_type := t, color := PieceColor.Black }

/-- `Row::empty()` from the source: eight empty squares. -/
def Row.empty : Row :=
  { pieces := List.replicate 8 Piece.air }

/-- The character-to-piece table of the `match` inside `Fen::from_string`.
Lowercase letters map to White pieces, uppercase letters to Black pieces,
the underscore to the empty square; every other character hits the
`unreachable!` arm, modelled by `none`. -/
def charToPiece (c : Char) : Option Piece :=
  if c = 'p' then some (Piece.white_piece PieceType.Pawn)
  else if c = 'P' then some (Piece.black_piece PieceType.Pawn)
  else if c = 'r' then some (Piece.white_piece PieceType.Rook)
  else if c = 'R' then some (Piece.black_piece PieceType.Rook)
  else if c = 'n' then some (Piece.white_piece PieceType.Knight)
  else if c = 'N' then some (Piece.black_piece PieceType.Knight)
  else if c = 'b' then some (Piece.white_piece PieceType.Bishop)
  else if c = 'B' then some (Piece.black_piece PieceType.Bishop)
  else if c = 'q' then some (Piece.white_piece PieceType.Queen)
  else if c = 'Q' then some (Piece.black_piece PieceType.Queen)
  else if c = 'k' then some (Piece.white_piece PieceType.King)
  else if c = 'K' then some (Piece.black_piece PieceType.King)
  else if c = '_' then some Piece.air
  else none

/-- The inner character loop of `Fen::from_string`, scanning one row
substring. `i` is the running enumeration index. The source first runs
`assert!(i <= 8)` (panic when `i > 8`), then matches the character (panic on
an unknown one), then assigns `row.pieces[i]`, which panics when
`i >= pieces.len()`. Each panic is modelled by `none`. -/
def scanRow : List Char → Nat → List Piece → Option (List Piece)
  | [], _, pieces => some pieces
  | c :: cs, i, pieces =>
    if i ≤ 8 then
      match charToPiece c with
      | some p =>
        if i < pieces.length then scanRow cs (i + 1) (pieces.set i p)
        else none
      | none => none
    else none

/-- The body of the outer loop of `Fen::from_string` for one row substring:
start from `Row::empty()` and scan the characters. -/
def parseGroup (g : List Char) : Option Row :=
  (scanRow g 0 Row.empty.pieces).map Row.mk

/-- The outer loop of `Fen::from_string`: one `Row` is pushed per row
substring, in input order; a panic anywhere aborts the whole call. -/
def parseRows : List (List Char) → Option (List Row)
  | [] => some []
  | g :: gs =>
    match parseGroup g with
    | none => none
    | some row =>
      match parseRows gs with
      | none => none
      | some rest => some (row :: rest)

/-- `input.split('/')` from the source, on the character list of the input.
Splitting the empty string yields one empty group, as in Rust. -/
def splitSlash : List Char → List (List Char)
  | [] => [[]]
  | c :: cs =>
    if c = '/' then [] :: splitSlash cs
    else
      match splitSlash cs with
      | [] => [[c]]
      | g :: gs => (c :: g) :: gs

/-- `Fen::from_string(input)` from the source. The source performs no check
on the number of groups produced by the split; it returns a `Fen` with one
row per group. `none` models a panic. -/
def Fen.from_string (input : String) : Option Fen :=
  (parseRows (splitSlash input.data)).map Fen.mk

/-- `impl Default for Fen` from the source: the starting position. -/
def Fen.default : Fen :=
  { rows :=
      [ { pieces :=
            [ Piece.white_piece PieceType.Rook,
              Piece.white_piece PieceType.Knight,
              Piece.white_piece PieceType.Bishop,
              Piece.white_piece PieceType.Queen,
              Piece.white_piece PieceType.King,
              Piece.white_piece PieceType.Bishop,
              Piece.white_piece PieceType.Knight,
              Piece.white_piece PieceType.Rook ] },
        { pieces := List.replicate 8 (Piece.white_piece PieceType.Pawn) },
        Row.empty,
        Row.empty,
        Row.empty,
        Row.empty,
        { pieces := List.replicate 8 (Piece.black_piece PieceType.Pawn) },
        { pieces :=
            [ Piece.black_piece PieceType.Rook,
              Piece.black_piece PieceType.Knight,
              Piece.black_piece PieceType.Bishop,
              Piece.black_piece PieceType.Queen,
              Piece.black_piece PieceType.King,
              Piece.black_piece PieceType.Bishop,
              Piece.black_piece PieceType.Knight,
              Piece.black_piece PieceType.Rook ] } ] }

/-- `impl Display for Piece` from the source: White pieces print as
lowercase letters, any other color as uppercase; the empty square prints as
the underscore. -/
def Piece.display (p : Piece) : String :=
  match p.piece_type with
  | PieceType.Pawn => if p.color = PieceColor.White then "p" else "P"
  | PieceType.Rook => if p.color = PieceColor.White then "r" else "R"
  | PieceType.Knight => if p.color = PieceColor.White then "n" else "N"
  | PieceType.Bishop => if p.color = PieceColor.White then "b" else "B"
  | PieceType.Queen => if p.color = PieceColor.White then "q" else "Q"
  | PieceType.King => if p.color = PieceColor.White then "k" else "K"
  | PieceType.Empty => "_"

/-- The loop of `impl Display for Row` from the source: `count` counts a run
of consecutive empty squares and `lastWasEmpty` records whether the previous
square was empty; the count is written only when a non-empty square follows
it, so a run of empty squares that reaches the end of the row is never
written. -/
def rowDisplayAux : List Piece → Nat → Bool → String
  | [], _, _ => ""
  | p :: ps, count, lastWasEmpty =>
    if p.piece_type = PieceType.Empty then
      rowDisplayAux ps (count + 1) true
    else if lastWasEmpty then
      toString count ++ p.display ++ rowDisplayAux ps 0 false
    else
      p.display ++ rowDisplayAux ps count false

/-- `impl Display for Row` from the source. -/
def Row.display (r : Row) : String :=
  rowDisplayAux r.pieces 0 false

/-- The loop of `impl Display for Fen` from the source: every row at
enumeration index `i` different from 8 is followed by a slash. For a board
of 8 rows the indices are 0 to 7, so the branch for `i = 8` is dead and
every row, the last one included, is followed by a slash. -/
def fenDisplayAux : List Row → Nat → String
  | [], _ => ""
  | r :: rs, i =>
    (if i = 8 then r.display else r.display ++ "/") ++ fenDisplayAux rs (i + 1)

/-- `impl Display for Fen` from the source. -/
def Fen.display (f : Fen) : String :=
  fenDisplayAux f.rows 0

/-- The all-empty board of the spec: 8 rows of 8 empty squares. The source
has no named constructor for it; it is the board the spec calls the
all-Empty Board. -/
def allEmptyFen : Fen :=
  { rows := List.replicate 8 Row.empty }

/-- The starting-position input string in the placeholder grammar. -/
def startPosInput : String :=
  "rnbqkbnr/pppppppp/________/________/________/________/PPPPPPPP/RNBQKBNR"

/-- A piece letter of the conventional output grammar: the alphabet of the
parse table minus the underscore placeholder. Follows the spec text; only
used by the reference parser below, not by the source. -/
def refLetter (c : Char) : Option Piece :=
  if c = '_' then none else charToPiece c

/-- The squares denoted by one group of the conventional run-length
grammar, following the spec text: a digit from 1 to 8 stands for that many
empty squares, a piece letter for one square. -/
def refGroupSquares : List Char → Option (List Piece)
  | [] => some []
  | c :: cs =>
    if '1' ≤ c ∧ c ≤ '8' then
      (refGroupSquares cs).map
        (fun ps => List.replicate (c.toNat - Char.toNat '0') Piece.air ++ ps)
    else
      match refLetter c with
      | some p => (refGroupSquares cs).map (fun ps => p :: ps)
      | none => none

/-- One row of the conventional grammar: the squares of the group must sum
to exactly 8. Follows the spec text. -/
def refRow (g : List Char) : Option Row :=
  match refGroupSquares g with
  | some ps => if ps.length = 8 then some (Row.mk ps) else none
  | none => none

/-- The rows of the conventional grammar, one per group, in order. -/
def refRows : List (List Char) → Option (List Row)
  | [] => some []
  | g :: gs => do
    let row ← refRow g
    let rest ← refRows gs
    pure (row :: rest)

/-- The reference parser of the conventional run-length-compressed FEN
grammar, following the spec text: exactly 8 groups separated by the slash,
each group a mix of piece letters (inverted case mapping) and digit counts
whose squares sum to 8. This parser is not in the source; the round-trip
claim compares format output against it. -/
def refParseConventional (s : String) : Option Fen :=
  let gs := splitSlash s.data
  if gs.length = 8 then (refRows gs).map Fen.mk else none

/-- The invariant of the spec on squares: the kind is Empty exactly when
the color is Empty. -/
def pieceInvariant (p : Piece) : Prop :=
  p.piece_type = PieceType.Empty ↔ p.color = PieceColor.Empty

instance (p : Piece) : Decidable (pieceInvariant p) := by
  unfold pieceInvariant
  infer_instance

/-! ## Helper lemmas about the parser -/

/-- Every piece produced by the character table satisfies the square
invariant. -/
lemma charToPiece_pinv {c : Char} {p : Piece} (h : charToPiece c = some p) :
    pieceInvariant p := by
  unfold charToPiece at h
  rcases ite_eq_iff.mp h with ⟨-, h2⟩ | ⟨-, h⟩
  · injection h2 with h2; subst h2; decide
  rcases ite_eq_iff.mp h with ⟨-, h2⟩ | ⟨-, h⟩
  · injection h2 with h2; subst h2; decide
  rcases ite_eq_iff.mp h with ⟨-, h2⟩ | ⟨-, h⟩
  · injection h2 with h2; subst h2; decide
  rcases ite_eq_iff.mp h with ⟨-, h2⟩ | ⟨-, h⟩
  · injection h2 with h2; subst h2; decide
  rcases ite_eq_iff.mp h with ⟨-, h2⟩ | ⟨-, h⟩
  · injection h2 with h2; subst h2; decide
  rcases ite_eq_iff.mp h with ⟨-, h2⟩ | ⟨-, h⟩
  · injection h2 with h2; subst h2; decide
  rcases ite_eq_iff.mp h with ⟨-, h2⟩ | ⟨-, h⟩
  · injection h2 with h2; subst h2; decide
  rcases ite_eq_iff.mp h with ⟨-, h2⟩ | ⟨-, h⟩
  · injection h2 with h2; subst h2; decide
  rcases ite_eq_iff.mp h with ⟨-, h2⟩ | ⟨-, h⟩
  · injection h2 with h2; subst h2; decide
  rcases ite_eq_iff.mp h with ⟨-, h2⟩ | ⟨-, h⟩
  · injection h2 with h2; subst h2; decide
  rcases ite_eq_iff.mp h with ⟨-, h2⟩ | ⟨-, h⟩
  · injection h2 with h2; subst h2; decide
  rcases ite_eq_iff.mp h with ⟨-, h2⟩ | ⟨-, h⟩
  · injection h2 with h2; subst h2; decide
  rcases ite_eq_iff.mp h with ⟨-, h2⟩ | ⟨-, h⟩
  · injection h2 with h2; subst h2; decide
  exact Option.noConfusion h

/-- When the characters all belong to the table and fit in the row,
`scanRow` succeeds; the squares at the scanned offsets hold the translated
characters and all other squares are untouched. -/
lemma scanRow_some : ∀ (cs : List Char) (i : Nat) (ps : List Piece),
    ps.length = 8 → i + cs.length ≤ 8 →
    (∀ c ∈ cs, (charToPiece c).isSome) →
    ∃ out, scanRow cs i ps = some out ∧ out.length = 8 ∧
      (∀ j, j < i ∨ i + cs.length ≤ j → out[j]? = ps[j]?) ∧
      (∀ j c, cs[j]? = some c → out[i + j]? = charToPiece c) := by
  intro cs
  induction cs with
  | nil =>
    intro i ps hlen _ _
    exact ⟨ps, rfl, hlen, fun j _ => rfl, fun j c hc => by simp at hc⟩
  | cons c cs ih =>
    intro i ps hlen hle hc
    obtain ⟨p, hp⟩ := Option.isSome_iff_exists.mp (hc c (List.mem_cons_self c cs))
    simp only [List.length_cons] at hle
    have hi8 : i ≤ 8 := by omega
    have hilt : i < ps.length := by omega
    obtain ⟨out, heq, holen, hunch, hmid⟩ :=
      ih (i + 1) (ps.set i p) (by simp [hlen]) (by omega)
        (fun d hd => hc d (List.mem_cons_of_mem c hd))
    refine ⟨out, ?_, holen, ?_, ?_⟩
    · simp only [scanRow, hp, if_pos hi8, if_pos hilt]
      exact heq
    · intro j hj
      have hji : i ≠ j := by
        rcases hj with h1 | h1
        · omega
        · simp only [List.length_cons] at h1; omega
      have h2 : out[j]? = (ps.set i p)[j]? := by
        apply hunch
        rcases hj with h1 | h1
        · exact Or.inl (by omega)
        · simp only [List.length_cons] at h1
          exact Or.inr (by omega)
      rw [h2, List.getElem?_set_ne hji]
    · intro j d hd
      match j, hd with
      | 0, hd =>
        rw [List.getElem?_cons_zero] at hd
        injection hd with hd
        subst hd
        have h1 : out[i]? = (ps.set i p)[i]? := hunch i (Or.inl (Nat.lt_succ_self i))
        rw [Nat.add_zero, h1, List.getElem?_set_self hilt, hp]
      | Nat.succ k, hd =>
        rw [List.getElem?_cons_succ] at hd
        have h1 := hmid k d hd
        rw [show i + (k + 1) = (i + 1) + k by omega]
        exact h1

/-- `scanRow` preserves the square invariant. -/
lemma scanRow_pinv : ∀ (cs : List Char) (i : Nat) (ps out : List Piece),
    scanRow cs i ps = some out → (∀ p ∈ ps, pieceInvariant p) →
    ∀ p ∈ out, pieceInvariant p := by
  intro cs
  induction cs with
  | nil =>
    intro i ps out h hps
    simp only [scanRow] at h
    injection h with h
    subst h
    exact hps
  | cons c cs ih =>
    intro i ps out h hps
    simp only [scanRow] at h
    split at h
    · cases hp : charToPiece c with
      | none =>
        rw [hp] at h
        exact Option.noConfusion h
      | some p =>
        simp only [hp] at h
        split at h
        · refine ih (i + 1) (ps.set i p) out h ?_
          intro q hq
          rcases List.mem_or_eq_of_mem_set hq with h1 | h1
          · exact hps q h1
          · subst h1
            exact charToPiece_pinv hp
        · exact Option.noConfusion h
    · exact Option.noConfusion h

/-- When a group has at most 8 characters, all from the table, the loop
body of `Fen::from_string` produces a row translating the characters in
order and leaving the remaining squares empty. -/
lemma parseGroup_some (g : List Char) (hlen : g.length ≤ 8)
    (hc : ∀ c ∈ g, (charToPiece c).isSome) :
    ∃ row : Row, parseGroup g = some row ∧ row.pieces.length = 8 ∧
      (∀ (j : Nat) (c : Char), g[j]? = some c → row.pieces[j]? = charToPiece c) ∧
      (∀ j : Nat, g.length ≤ j → j < 8 → row.pieces[j]? = some Piece.air) := by
  obtain ⟨out, heq, holen, hunch, hmid⟩ :=
    scanRow_some g 0 Row.empty.pieces (by simp [Row.empty]) (by omega) hc
  refine ⟨Row.mk out, ?_, holen, ?_, ?_⟩
  · unfold parseGroup
    rw [heq]
    rfl
  · intro j c hj
    have h1 := hmid j c hj
    simpa using h1
  · intro j hj hj8
    have h1 : out[j]? = Row.empty.pieces[j]? := hunch j (Or.inr (by omega))
    show out[j]? = some Piece.air
    rw [h1]
    unfold Row.empty
    exact List.getElem?_replicate_of_lt hj8

/-- The rows produced by the loop body satisfy the square invariant. -/
lemma parseGroup_pinv (g : List Char) (row : Row) (h : parseGroup g = some row) :
    ∀ p ∈ row.pieces, pieceInvariant p := by
  unfold parseGroup at h
  cases hs : scanRow g 0 Row.empty.pieces with
  | none =>
    rw [hs] at h
    exact Option.noConfusion h
  | some out =>
    rw [hs] at h
    simp only [Option.map_some'] at h
    injection h with h
    subst h
    intro p hp
    refine scanRow_pinv g 0 _ out hs ?_ p hp
    intro q hq
    unfold Row.empty at hq
    rw [List.eq_of_mem_replicate hq]
    decide

/-- When every group has at most 8 characters, all from the table, the
outer loop of `Fen::from_string` succeeds with one row per group, in input
order. -/
lemma parseRows_some : ∀ (gs : List (List Char)),
    (∀ g ∈ gs, g.length ≤ 8 ∧ ∀ c ∈ g, (charToPiece c).isSome) →
    ∃ rows : List Row, parseRows gs = some rows ∧ rows.length = gs.length ∧
      ∀ (r : Nat) (g : List Char), gs[r]? = some g →
        ∃ row : Row, rows[r]? = some row ∧ row.pieces.length = 8 ∧
          (∀ (j : Nat) (c : Char), g[j]? = some c → row.pieces[j]? = charToPiece c) ∧
          (∀ j : Nat, g.length ≤ j → j < 8 → row.pieces[j]? = some Piece.air) := by
  intro gs
  induction gs with
  | nil =>
    intro _
    exact ⟨[], rfl, rfl, fun r g hg => by simp at hg⟩
  | cons g gs ih =>
    intro hok
    obtain ⟨hg8, hgc⟩ := hok g (List.mem_cons_self g gs)
    obtain ⟨row, hrow, hrlen, hmap, hdef⟩ := parseGroup_some g hg8 hgc
    obtain ⟨rows, hrows, hlen, hall⟩ :=
      ih (fun g1 hg1 => hok g1 (List.mem_cons_of_mem g hg1))
    refine ⟨row :: rows, ?_, by simp [hlen], ?_⟩
    · simp only [parseRows, hrow, hrows]
    · intro r g1 hg1
      match r, hg1 with
      | 0, hg1 =>
        rw [List.getElem?_cons_zero] at hg1
        injection hg1 with hg1
        subst hg1
        exact ⟨row, List.getElem?_cons_zero, hrlen, hmap, hdef⟩
      | Nat.succ k, hg1 =>
        rw [List.getElem?_cons_succ] at hg1
        rw [List.getElem?_cons_succ]
        exact hall k g1 hg1

/-- Every row produced by the outer loop satisfies the square invariant. -/
lemma parseRows_pinv : ∀ (gs : List (List Char)) (rows : List Row),
    parseRows gs = some rows →
    ∀ row ∈ rows, ∀ p ∈ row.pieces, pieceInvariant p := by
  intro gs
  induction gs with
  | nil =>
    intro rows h
    simp only [parseRows] at h
    injection h with h
    subst h
    intro row hrow
    simp at hrow
  | cons g gs ih =>
    intro rows h
    simp only [parseRows] at h
    cases hg : parseGroup g with
    | none =>
      rw [hg] at h
      exact Option.noConfusion h
    | some row0 =>
      rw [hg] at h
      cases hrest : parseRows gs with
      | none =>
        rw [hrest] at h
        exact Option.noConfusion h
      | some rest =>
        rw [hrest] at h
        injection h with h
        subst h
        intro row hrow
        rcases List.mem_cons.mp hrow with h1 | h1
        · subst h1
          exact parseGroup_pinv g row hg
        · exact ih rest hrest row h1

/-- Every row of a parsed board satisfies the square invariant. -/
lemma from_string_pinv (input : String) (f : Fen)
    (hf : Fen.from_string input = some f) :
    ∀ row ∈ f.rows, ∀ p ∈ row.pieces, pieceInvariant p := by
  unfold Fen.from_string at hf
  cases hrows : parseRows (splitSlash input.data) with
  | none =>
    rw [hrows] at hf
    exact Option.noConfusion hf
  | some rows =>
    rw [hrows] at hf
    simp only [Option.map_some'] at hf
    injection hf with hf
    subst hf
    intro row hrow
    exact parseRows_pinv _ rows hrows row hrow

/-! ## Claim theorems -/

/-- Claim C1: formatting the all-Empty board yields the string of eight
slashes, which the reference parser of the conventional run-length
grammar rejects, so the format output does not round-trip through the
conventional grammar and the board is not recovered. -/
theorem display_allEmpty_rejected_by_conventional_grammar :
    Fen.display allEmptyFen = "////////" ∧
    refParseConventional (Fen.display allEmptyFen) = none := by
  constructor
  · rfl
  · rfl

/-- Claim C2: `Fen::from_string` panics (modelled by `none`) on a group
with an unrecognized character and on a group of 9 characters, and for an
input of only 7 groups it silently returns a board of 7 rows instead of an
error. -/
theorem from_string_panics_on_malformed_input :
    Fen.from_string "x" = none ∧
    Fen.from_string "_________" = none ∧
    Fen.from_string "_/_/_/_/_/_/_" = some (Fen.mk (List.replicate 7 Row.empty)) := by
  refine ⟨rfl, rfl, ?_⟩
  decide

/-- Claim C3: formatting the all-Empty board yields eight bare slashes,
not the eight digit-8 groups the spec requires, because the trailing
empty-run count of each row is never written and a slash follows every
row. -/
theorem display_allEmpty_board :
    Fen.display allEmptyFen = "////////" ∧
    Fen.display allEmptyFen ≠ "8/8/8/8/8/8/8/8" := by
  constructor
  · rfl
  · decide

/-- Claim C4: the formatted output of an 8-row board carries a trailing
separator after the last group, because the branch of the row loop meant
to skip it tests the enumeration index against 8, which is never reached. -/
theorem display_emits_trailing_separator :
    Fen.display
        (Fen.mk (List.replicate 8 (Row.mk (List.replicate 8 (Piece.white_piece PieceType.King))))) =
      "kkkkkkkk/kkkkkkkk/kkkkkkkk/kkkkkkkk/kkkkkkkk/kkkkkkkk/kkkkkkkk/kkkkkkkk/" ∧
    Fen.display
        (Fen.mk (List.replicate 8 (Row.mk (List.replicate 8 (Piece.white_piece PieceType.King))))) ≠
      "kkkkkkkk/kkkkkkkk/kkkkkkkk/kkkkkkkk/kkkkkkkk/kkkkkkkk/kkkkkkkk/kkkkkkkk" := by
  constructor
  · rfl
  · decide

/-- Claim C5: formatting a row emits the count for an interior run of
empty squares but never for a run that reaches the end of the row: the
all-Empty row formats as the empty string instead of the digit 8, and a
row of two empties, a white pawn and five empties formats as the string
2p instead of 2p5. -/
theorem row_display_drops_trailing_empty_run :
    Row.display Row.empty = "" ∧
    Row.display
        (Row.mk ([Piece.air, Piece.air, Piece.white_piece PieceType.Pawn] ++
          List.replicate 5 Piece.air)) = "2p" := by
  constructor
  · rfl
  · rfl

/-- Claim C6: for well-formed input, 8 groups of at most 8 recognized
characters, parse translates the characters by the table (lowercase
letters to White pieces, uppercase letters to Black pieces of the same
kinds, the underscore to the empty square), assigns each group character
to file indices 0, 1, 2 and so on left to right, and places the scanned
rows into board indices 0 to 7 in input order with no reversal. -/
theorem from_string_wellformed (input : String)
    (h8 : (splitSlash input.data).length = 8)
    (hok : ∀ g ∈ splitSlash input.data, g.length ≤ 8 ∧ ∀ c ∈ g, (charToPiece c).isSome) :
    charToPiece 'p' = some (Piece.white_piece PieceType.Pawn) ∧
    charToPiece 'r' = some (Piece.white_piece PieceType.Rook) ∧
    charToPiece 'n' = some (Piece.white_piece PieceType.Knight) ∧
    charToPiece 'b' = some (Piece.white_piece PieceType.Bishop) ∧
    charToPiece 'q' = some (Piece.white_piece PieceType.Queen) ∧
    charToPiece 'k' = some (Piece.white_piece PieceType.King) ∧
    charToPiece 'P' = some (Piece.black_piece PieceType.Pawn) ∧
    charToPiece 'R' = some (Piece.black_piece PieceType.Rook) ∧
    charToPiece 'N' = some (Piece.black_piece PieceType.Knight) ∧
    charToPiece 'B' = some (Piece.black_piece PieceType.Bishop) ∧
    charToPiece 'Q' = some (Piece.black_piece PieceType.Queen) ∧
    charToPiece 'K' = some (Piece.black_piece PieceType.King) ∧
    charToPiece '_' = some Piece.air ∧
    ∃ f : Fen, Fen.from_string input = some f ∧ f.rows.length = 8 ∧
      ∀ (r : Nat) (g : List Char), (splitSlash input.data)[r]? = some g →
        ∃ row : Row, f.rows[r]? = some row ∧
          ∀ (j : Nat) (c : Char), g[j]? = some c → row.pieces[j]? = charToPiece c := by
  refine ⟨rfl, rfl, rfl, rfl, rfl, rfl, rfl, rfl, rfl, rfl, rfl, rfl, rfl, ?_⟩
  obtain ⟨rows, hrows, hlen, hall⟩ := parseRows_some (splitSlash input.data) hok
  refine ⟨Fen.mk rows, ?_, by rw [show (Fen.mk rows).rows = rows from rfl, hlen, h8], ?_⟩
  · unfold Fen.from_string
    rw [hrows]
    rfl
  · intro r g hg
    obtain ⟨row, hrow, -, hmap, -⟩ := hall r g hg
    exact ⟨row, hrow, hmap⟩

/-- Witness for claim C6 at the concrete input of one group holding a
single lowercase p followed by seven empty groups. -/
theorem from_string_wellformed_witness :
    ((splitSlash "p///////".data).length = 8 ∧
      (∀ g ∈ splitSlash "p///////".data, g.length ≤ 8 ∧ ∀ c ∈ g, (charToPiece c).isSome)) ∧
    (charToPiece 'p' = some (Piece.white_piece PieceType.Pawn) ∧
    charToPiece 'r' = some (Piece.white_piece PieceType.Rook) ∧
    charToPiece 'n' = some (Piece.white_piece PieceType.Knight) ∧
    charToPiece 'b' = some (Piece.white_piece PieceType.Bishop) ∧
    charToPiece 'q' = some (Piece.white_piece PieceType.Queen) ∧
    charToPiece 'k' = some (Piece.white_piece PieceType.King) ∧
    charToPiece 'P' = some (Piece.black_piece PieceType.Pawn) ∧
    charToPiece 'R' = some (Piece.black_piece PieceType.Rook) ∧
    charToPiece 'N' = some (Piece.black_piece PieceType.Knight) ∧
    charToPiece 'B' = some (Piece.black_piece PieceType.Bishop) ∧
    charToPiece 'Q' = some (Piece.black_piece PieceType.Queen) ∧
    charToPiece 'K' = some (Piece.black_piece PieceType.King) ∧
    charToPiece '_' = some Piece.air ∧
    ∃ f : Fen, Fen.from_string "p///////" = some f ∧ f.rows.length = 8 ∧
      ∀ (r : Nat) (g : List Char), (splitSlash "p///////".data)[r]? = some g →
        ∃ row : Row, f.rows[r]? = some row ∧
          ∀ (j : Nat) (c : Char), g[j]? = some c → row.pieces[j]? = charToPiece c) :=
  ⟨⟨by decide, by decide⟩, from_string_wellformed "p///////" (by decide) (by decide)⟩

/-- Claim C7: parse of the starting-position placeholder string yields the
default board, but formatting the default board yields a string with
empty middle groups and a trailing slash, not the run-length string the
spec requires. -/
theorem startpos_parse_ok_format_divergent :
    Fen.from_string startPosInput = some Fen.default ∧
    Fen.display Fen.default = "rnbqkbnr/pppppppp/////PPPPPPPP/RNBQKBNR/" ∧
    Fen.display Fen.default ≠ "rnbqkbnr/pppppppp/8/8/8/8/PPPPPPPP/RNBQKBNR" := by
  refine ⟨by decide, rfl, by decide⟩

/-- Claim C8: `Fen::from_string` performs no check on the number of
groups: parsing the empty string returns a board of exactly one row, so
not every board produced by parse has 8 rows. -/
theorem from_string_accepts_wrong_row_count :
    Fen.from_string "" = some (Fen.mk [Row.empty]) ∧
    (Fen.mk [Row.empty]).rows.length = 1 := by
  constructor
  · rfl
  · rfl

/-- Counterexample to claim C9: `Piece::white_piece` applied to the Empty
kind is constructible through the public interface and violates the
square invariant, holding an Empty kind with a White color. -/
theorem white_piece_empty_violates_invariant :
    ¬ pieceInvariant (Piece.white_piece PieceType.Empty) := by
  decide

/-- Claim C9 as amended: every square constructible via parse, the default
starting-position board, `Row::empty`, `Piece::air`, and
`Piece::white_piece` or `Piece::black_piece` applied to a non-Empty kind
satisfies the invariant that its kind is Empty exactly when its color is
Empty. -/
theorem constructors_satisfy_piece_invariant (input : String) (f : Fen)
    (hf : Fen.from_string input = some f) (t : PieceType) (ht : t ≠ PieceType.Empty) :
    pieceInvariant Piece.air ∧
    pieceInvariant (Piece.white_piece t) ∧
    pieceInvariant (Piece.black_piece t) ∧
    (∀ p ∈ Row.empty.pieces, pieceInvariant p) ∧
    (∀ row ∈ Fen.default.rows, ∀ p ∈ row.pieces, pieceInvariant p) ∧
    (∀ row ∈ f.rows, ∀ p ∈ row.pieces, pieceInvariant p) := by
  refine ⟨by decide, ?_, ?_, by decide, by decide, from_string_pinv input f hf⟩
  · exact ⟨fun h1 => absurd h1 ht, fun h1 => PieceColor.noConfusion h1⟩
  · exact ⟨fun h1 => absurd h1 ht, fun h1 => PieceColor.noConfusion h1⟩

/-- Witness for the amended claim C9 at the empty input string and the
Pawn kind. -/
theorem constructors_satisfy_piece_invariant_witness :
    (Fen.from_string "" = some (Fen.mk [Row.empty]) ∧ PieceType.Pawn ≠ PieceType.Empty) ∧
    (pieceInvariant Piece.air ∧
    pieceInvariant (Piece.white_piece PieceType.Pawn) ∧
    pieceInvariant (Piece.black_piece PieceType.Pawn) ∧
    (∀ p ∈ Row.empty.pieces, pieceInvariant p) ∧
    (∀ row ∈ Fen.default.rows, ∀ p ∈ row.pieces, pieceInvariant p) ∧
    (∀ row ∈ (Fen.mk [Row.empty]).rows, ∀ p ∈ row.pieces, pieceInvariant p)) :=
  ⟨⟨by decide, by decide⟩,
    constructors_satisfy_piece_invariant "" (Fen.mk [Row.empty]) (by decide)
      PieceType.Pawn (by decide)⟩

/-- Counterexample to claim C10: the input of the single character x has
one group of one character, so every group has at most 8 characters, yet
parse does not return a board: it panics on the unrecognized character. -/
theorem unknown_char_in_short_group_panics :
    (∀ g ∈ splitSlash "x".data, g.length ≤ 8) ∧ Fen.from_string "x" = none := by
  constructor
  · decide
  · rfl

/-- Claim C10 as amended: for every input whose groups each contain at
most 8 recognized characters, parse returns a board with exactly one row
per group in input order, and within each row the squares at indices
beyond the provided characters are Empty; parse of the empty string
returns a board with exactly one row of 8 Empty squares. -/
theorem from_string_short_groups (input : String)
    (hok : ∀ g ∈ splitSlash input.data, g.length ≤ 8 ∧ ∀ c ∈ g, (charToPiece c).isSome) :
    (∃ f : Fen, Fen.from_string input = some f ∧
      f.rows.length = (splitSlash input.data).length ∧
      ∀ (r : Nat) (g : List Char), (splitSlash input.data)[r]? = some g →
        ∃ row : Row, f.rows[r]? = some row ∧ row.pieces.length = 8 ∧
          ∀ j : Nat, g.length ≤ j → j < 8 → row.pieces[j]? = some Piece.air) ∧
    Fen.from_string "" = some (Fen.mk [Row.empty]) := by
  refine ⟨?_, rfl⟩
  obtain ⟨rows, hrows, hlen, hall⟩ := parseRows_some (splitSlash input.data) hok
  refine ⟨Fen.mk rows, ?_, hlen, ?_⟩
  · unfold Fen.from_string
    rw [hrows]
    rfl
  · intro r g hg
    obtain ⟨row, hrow, hrlen, -, hdef⟩ := hall r g hg
    exact ⟨row, hrow, hrlen, hdef⟩

/-- Witness for the amended claim C10 at the concrete input of one group
of two lowercase p characters. -/
theorem from_string_short_groups_witness :
    (∀ g ∈ splitSlash "pp".data, g.length ≤ 8 ∧ ∀ c ∈ g, (charToPiece c).isSome) ∧
    ((∃ f : Fen, Fen.from_string "pp" = some f ∧
      f.rows.length = (splitSlash "pp".data).length ∧
      ∀ (r : Nat) (g : List Char), (splitSlash "pp".data)[r]? = some g →
        ∃ row : Row, f.rows[r]? = some row ∧ row.pieces.length = 8 ∧
          ∀ j : Nat, g.length ≤ j → j < 8 → row.pieces[j]? = some Piece.air) ∧
    Fen.from_string "" = some (Fen.mk [Row.empty])) :=
  ⟨by decide, from_string_short_groups "pp" (by decide)⟩

end FenSpec
